import Mathlib

/-!
Verification development for the clinical-data extraction repository.

The repository's dynamic-panel scripts ("Aggregation of dynamic data/mimic_III.py"
and "eICU.py") bin lab observations by the absolute value of a relative-hour
offset into a fixed 2-hour grid, keep the last record per (entity, bin), and
assemble a dense entity x bin panel.  The laboratory extraction scripts
("Laboratory variables/...") resolve columns case-insensitively, normalize
units, and null out-of-range values.  The patient-data filter
("Extract patient data/eICU.py") filters large CSVs by a baseline id set in
chunks.  This file embeds those computations over exact rationals (the Python
scripts compute with IEEE doubles on decimal data; every concrete input used
here is exactly representable, so `Rat` arithmetic agrees with the scripts on
those inputs) and proves the specified properties about them.
-/

set_option maxRecDepth 400000

/-! ### Small string library (Python `str` operations used by the scripts) -/

/-- Python `str.lower` restricted to the characters appearing in headers and
unit labels (ASCII letters; other characters are left unchanged by
`Char.toLower` just as by Python). -/
def strLower (s : String) : String := ⟨s.data.map Char.toLower⟩

/-- Worker for `strReplace`: replaces non-overlapping occurrences of `pat`
left to right, like Python `str.replace`.  `fuel` bounds the recursion and is
instantiated with the string length. -/
def replaceAux (pat rep : List Char) : ℕ → List Char → List Char
  | 0, s => s
  | _, [] => []
  | fuel + 1, c :: rest =>
    if pat.isPrefixOf (c :: rest) then
      rep ++ replaceAux pat rep fuel ((c :: rest).drop pat.length)
    else c :: replaceAux pat rep fuel rest

/-- Python `str.replace` (all non-overlapping occurrences, left to right). -/
def strReplace (s pat rep : String) : String :=
  ⟨replaceAux pat.data rep.data s.data.length s.data⟩

/-- Worker for `containsStr`. -/
def containsAux (pat : List Char) : List Char → Bool
  | [] => pat.isPrefixOf []
  | c :: rest => pat.isPrefixOf (c :: rest) || containsAux pat rest

/-- Python substring test (`pat in s`). -/
def containsStr (s pat : String) : Bool := containsAux pat.data s.data

/-- Python `str.endswith`. -/
def endsWithStr (s suf : String) : Bool := suf.data.isSuffixOf s.data

/-- Python `str.strip` (leading and trailing whitespace). -/
def strTrim (s : String) : String :=
  ⟨((s.data.dropWhile fun c => c.isWhitespace).reverse.dropWhile
      fun c => c.isWhitespace).reverse⟩

/-- Python `", ".join(candidates)`. -/
def joinComma : List String → String
  | [] => ""
  | [c] => c
  | c :: rest => c ++ ", " ++ joinComma rest

/-! ### Stable insertion sort

`pandas.DataFrame.sort_values` followed by `groupby(...).tail(1)` is embedded
as a sort (by a boolean comparison) followed by taking the last element of
each key group.  The sort is a stable insertion sort: each incoming element is
placed after every already-placed element that compares `le` to it. -/

/-- Insert `x` after every element of `l` that is `le x`. -/
def insertLE {α : Type} (le : α → α → Bool) (x : α) : List α → List α
  | [] => [x]
  | y :: ys => if le y x then y :: insertLE le x ys else x :: y :: ys

/-- Stable insertion sort by the boolean comparison `le`. -/
def sortLE {α : Type} (le : α → α → Bool) (l : List α) : List α :=
  l.foldl (fun acc x => insertLE le x acc) []

/-! ### Positive-time binner
From `Aggregation of dynamic data/mimic_III.py` (identical constants and
binning arithmetic in `eICU.py`). -/

/-- `ABS_START_H = 8`. -/
def ABS_START_H : ℚ := 8

/-- `ABS_END_H = 30 * 24`. -/
def ABS_END_H : ℚ := 30 * 24

/-- `BIN_H = 2`. -/
def BIN_H : ℚ := 2

/-- `numpy.arange(start, stop, step)` for a positive rational step:
`ceil((stop - start) / step)` points `start + step * i`. -/
def arangeQ (start stop step : ℚ) : List ℚ :=
  (List.range (⌈(stop - start) / step⌉).toNat).map (fun i => start + step * i)

/-- `GRID_ENDS = np.arange(ABS_START_H + BIN_H, ABS_END_H + 1, BIN_H)`. -/
def GRID_ENDS : List ℚ := arangeQ (ABS_START_H + BIN_H) (ABS_END_H + 1) BIN_H

/-- `N_BINS = len(GRID_ENDS)`. -/
def N_BINS : ℕ := GRID_ENDS.length

/-- `_assign_bin_end_hours_abs` applied to a single relative-hour value:
rows with `|h|` outside `[ABS_START_H, ABS_END_H)` get no bin (the pandas
output series has no entry at their index, i.e. `none` here); rows inside get
`ABS_START_H + clip(ceil((|h| - ABS_START_H) / BIN_H), 1, N_BINS) * BIN_H`. -/
def _assign_bin_end_hours_abs (h : ℚ) : Option ℚ :=
  let a := |h|
  if ABS_START_H ≤ a ∧ a < ABS_END_H then
    some (ABS_START_H + ((max 1 (min ((N_BINS : ℤ)) ⌈(a - ABS_START_H) / BIN_H⌉) : ℤ) : ℚ) * BIN_H)
  else none

/-! ### Binning one variable
From `_bin_one_variable` in the aggregation scripts (the `eICU.py` form;
`mimic_III.py` additionally pre-filters observations to the cohort ids, which
the panel skeleton join makes irrelevant to the properties proved here). -/

/-- One long-format observation row after id/value normalization:
entity id, resolved signed relative hours (`_hours`), numeric value
(`none` when `pd.to_numeric` coerced it to NaN). -/
structure Obs where
  id : ℤ
  hours : ℚ
  val : Option ℚ
deriving DecidableEq

/-- One row of the per-variable aggregate returned by `_bin_one_variable`:
`[entity id, rel_hour, value]` (its `_obs` column is the constant 1). -/
structure AggRow where
  id : ℤ
  relHour : ℚ
  val : Option ℚ
deriving DecidableEq

/-- Rows that fall inside the window, paired with their assigned bin endpoint
(`df["_rel_hour"] = _assign_bin_end_hours_abs(df["_hours"])` followed by
dropping rows with a null `_rel_hour`). -/
def binnedRows (obs : List Obs) : List (Obs × ℚ) :=
  obs.filterMap (fun o => (_assign_bin_end_hours_abs o.hours).map (fun b => (o, b)))

/-- Sort key for `df.sort_values([id, "_rel_hour", "_hours"])`: lexicographic
on (entity id, bin endpoint, signed hours). -/
def rowKey (r : Obs × ℚ) : ℤ ×ₗ (ℚ ×ₗ ℚ) := toLex (r.1.id, toLex (r.2, r.1.hours))

/-- Boolean comparison realizing that sort order. -/
def rowLE (a b : Obs × ℚ) : Bool := decide (rowKey a ≤ rowKey b)

/-- The binned rows in `sort_values([id, "_rel_hour", "_hours"])` order. -/
def sortedBinned (obs : List Obs) : List (Obs × ℚ) := sortLE rowLE (binnedRows obs)

/-- The rows of one `groupby([id, "_rel_hour"])` group, in sorted order. -/
def groupRows (obs : List Obs) (i : ℤ) (b : ℚ) : List (Obs × ℚ) :=
  (sortedBinned obs).filter (fun r => decide (r.1.id = i ∧ r.2 = b))

/-- The distinct `(entity id, bin)` keys present among the binned rows. -/
def groupKeys (obs : List Obs) : List (ℤ × ℚ) :=
  ((sortedBinned obs).map (fun r => (r.1.id, r.2))).dedup

/-- `_bin_one_variable`: for each `(entity id, bin)` key, keep the last row of
the group in sorted order (`groupby([id, "_rel_hour"]).tail(1)`) and emit
`[id, rel_hour, value]`. -/
def _bin_one_variable (obs : List Obs) : List AggRow :=
  (groupKeys obs).filterMap
    (fun k => ((groupRows obs k.1 k.2).getLast?).map (fun r => ⟨k.1, k.2, r.1.val⟩))

/-! ### Panel assembly
From `main` in the aggregation scripts: dedup the base ids, build the
entity x `GRID_ENDS` skeleton (`ids.merge(grid, how="cross")`), then for each
variable left-join its aggregate and fill the `_obs` flag with 0 where the
join found no match.  A variable whose extraction raised is replaced by an
empty aggregate (`except` branch). -/

/-- One panel row: entity id, bin endpoint, and per-variable cells
`(value, obs flag)` in variable order. -/
structure PanelRow where
  id : ℤ
  relHour : ℚ
  cells : List (Option ℚ × ℕ)
deriving DecidableEq

/-- The `ids.merge(grid, how="cross")` skeleton, with no variable columns yet. -/
def skeleton (ids : List ℤ) : List PanelRow :=
  ids.flatMap (fun i => GRID_ENDS.map (fun g => ⟨i, g, []⟩))

/-- Aggregate rows matching one `(entity, bin)` join key. -/
def aggMatches (agg : List AggRow) (i : ℤ) (g : ℚ) : List AggRow :=
  agg.filter (fun a => decide (a.id = i ∧ a.relHour = g))

/-- `panel.merge(agg, on=[id, rel_hour], how="left")` followed by
`panel[obs_col].fillna(0)`: each panel row is repeated once per matching
aggregate row and gains a `(value, 1)` cell, or is kept once with a
`(none, 0)` cell when nothing matches. -/
def mergeVar (panel : List PanelRow) (agg : List AggRow) : List PanelRow :=
  panel.flatMap (fun r =>
    match aggMatches agg r.id r.relHour with
    | [] => [⟨r.id, r.relHour, r.cells ++ [(none, 0)]⟩]
    | ms => ms.map (fun a => ⟨r.id, r.relHour, r.cells ++ [(a.val, 1)]⟩))

/-- The variable loop of `main`: left-join every aggregate in order. -/
def assemblePanel (ids : List ℤ) (aggs : List (List AggRow)) : List PanelRow :=
  aggs.foldl mergeVar (skeleton ids)

/-- Per-variable extraction outcome consumed by `main`'s loop: `some obs` when
`_bin_one_variable` succeeded on that variable's file, `none` when it raised
(missing file, unresolvable columns) and the `except` branch substituted the
empty placeholder aggregate. -/
def aggsOf (results : List (Option (List Obs))) : List (List AggRow) :=
  results.map (fun r => match r with | some obs => _bin_one_variable obs | none => [])

/-- `main`: dedup the base cohort ids, build the skeleton, merge every
variable (sorting the final frame does not change its rows and is omitted). -/
def mainPanel (rawIds : List ℤ) (results : List (Option (List Obs))) : List PanelRow :=
  assemblePanel rawIds.dedup (aggsOf results)

/-- The single aggregate row matching a join key, when the aggregate's keys
are unique. -/
def lookupAgg (agg : List AggRow) (i : ℤ) (g : ℚ) : Option (Option ℚ) :=
  (agg.find? (fun a => decide (a.id = i ∧ a.relHour = g))).map (fun a => a.val)

/-- Cell produced by the left join: matched rows carry `(value, 1)`, unmatched
rows `(none, 0)` after `fillna(0)`. -/
def cellOf : Option (Option ℚ) → Option ℚ × ℕ
  | none => (none, 0)
  | some v => (v, 1)

/-! ### Range cleaner
From `extract_long` in `Laboratory variables/Creatinine + blood sodium +
blood potassium + hemoglobin/mimic_IV.py` (same masks in `extract_one` of the
`eICU.py` sibling) and from the albumin script
`Laboratory variables/Albumin/mimic_IV.py` (`mask_out_of_range`). -/

/-- The five analytes handled by the laboratory scripts. -/
inductive Analyte
  | Creatinine
  | Sodium
  | Potassium
  | Hemoglobin
  | Albumin
deriving DecidableEq

/-- `RANGE` of `mimic_IV.py` plus the albumin script's `LOW, HIGH = 2.0, 5.0`. -/
def RANGE : Analyte → ℚ × ℚ
  | .Creatinine => (0.1, 20.0)
  | .Sodium => (110.0, 170.0)
  | .Potassium => (1.5, 8.0)
  | .Hemoglobin => (3.0, 22.0)
  | .Albumin => (2.0, 5.0)

/-- `analyte in ("Creatinine", "Hemoglobin", "Potassium")`: the analytes whose
non-positive values are nulled before the range check.  The albumin and sodium
scripts have no such step. -/
def nonPosNullRule (a : Analyte) : Bool :=
  match a with
  | .Creatinine => true
  | .Hemoglobin => true
  | .Potassium => true
  | _ => false

/-- `d.loc[d[col_value] <= 0, col_value] = np.nan` guarded by the analyte
test; `none` models NaN. -/
def maskNonPos (a : Analyte) (v : Option ℚ) : Option ℚ :=
  match v with
  | some x => if nonPosNullRule a ∧ x ≤ 0 then none else some x
  | none => none

/-- `d.loc[(d[col_value] < lo) | (d[col_value] > hi), col_value] = np.nan`. -/
def maskRange (lo hi : ℚ) (v : Option ℚ) : Option ℚ :=
  match v with
  | some x => if x < lo ∨ hi < x then none else some x
  | none => none

/-- The value-cleaning pipeline of `extract_long`: null non-positives (for the
three analytes with that rule), then null values outside the fixed range. -/
def cleanValue (a : Analyte) (v : Option ℚ) : Option ℚ :=
  maskRange (RANGE a).1 (RANGE a).2 (maskNonPos a v)

/-- The masking steps applied to a whole column of `(entity, value)` rows:
rows are modified in place, never dropped at this step. -/
def cleanColumn (a : Analyte) (rows : List (ℤ × Option ℚ)) : List (ℤ × Option ℚ) :=
  rows.map (fun r => (r.1, cleanValue a r.2))

/-! ### Unit normalizer
From `convert_units` in `Laboratory variables/Creatinine + blood sodium +
blood potassium + hemoglobin/eICU.py`; unit labels reach it lowercased. -/

/-- The unicode-micro folding and spelled-out-name standardization applied to
the unit series before matching, in source order. -/
def normalize_unit (u : String) : String :=
  strReplace (strReplace (strReplace (strReplace (strReplace (strReplace
    (strReplace (strReplace (strReplace (strReplace u
      "µ" "u") "μ" "u")
      "milliequivalents/l" "meq/l") "milliequivalent/l" "meq/l")
      "millimoles/l" "mmol/l") "millimole/l" "mmol/l")
      "gram/l" "g/l") "grams/l" "g/l")
      "gram/dl" "g/dl") "grams/dl" "g/dl"

/-- `convert_units` on a single `(value, unit)` pair: rescale the value for
the supported input units and rewrite accepted labels to the analyte's
canonical lowercase unit.  Sodium and potassium treat `meq/l` as identical to
`mmol/l` (no factor, label rewrite only). -/
def convert_units (analyte : Analyte) (x : ℚ) (u0 : String) : ℚ × String :=
  let u := normalize_unit u0
  match analyte with
  | .Creatinine =>
    (if u = "mg/l" then x / 10 else if u = "umol/l" then x / 88.4 else x,
     if u = "mg/dl" ∨ u = "mg/l" ∨ u = "umol/l" then "mg/dl" else u)
  | .Sodium =>
    (if u = "mg/dl" then x * (10 / 22.989) else x,
     if u = "mmol/l" ∨ u = "meq/l" ∨ u = "mg/dl" then "mmol/l" else u)
  | .Potassium =>
    (if u = "mg/dl" then x * (10 / 39.098) else x,
     if u = "mmol/l" ∨ u = "meq/l" ∨ u = "mg/dl" then "mmol/l" else u)
  | .Hemoglobin =>
    (if u = "g/l" then x / 10 else if u = "mmol/l" then x * 6.45 else x,
     if u = "g/dl" ∨ u = "g/l" ∨ u = "mmol/l" then "g/dl" else u)
  | .Albumin => (x, u)

/-! ### Relative-time resolver
From `_ensure_hours_series` in `Aggregation of dynamic data/mimic_III.py`
(the claim's condition list; the `eICU.py` variant omits the `hours`/`hour`
names and raises instead of returning `None`). -/

/-- `np.nanmedian` over the non-null values: sort and take the middle element,
or the mean of the two middle elements for an even count. -/
def nanmedianQ (xs : List ℚ) : Option ℚ :=
  let s := sortLE (fun a b => decide (a ≤ b)) xs
  if s.length = 0 then none
  else if s.length % 2 = 1 then s.get? (s.length / 2)
  else
    match s.get? (s.length / 2 - 1), s.get? (s.length / 2) with
    | some a, some b => some ((a + b) / 2)
    | _, _ => none

/-- The name test of `_ensure_hours_series`: `"offset" in name or
name.endswith("_charttime") or name in ["hours", "hour"]` on the lowercased
column name. -/
def offsetLikeName (time_col_name : String) : Bool :=
  let n := strLower time_col_name
  containsStr n "offset" || endsWithStr n "_charttime" || n = "hours" || n = "hour"

/-- `_ensure_hours_series` on an already numeric-coerced series (`none`
entries are values `pd.to_numeric` turned into NaN): offset-like names use
the non-null median to decide minutes (`|median| > 500`, divide by 60) versus
hours (unchanged); other names are used directly as hours when at least one
value is numeric; otherwise `None` is returned (absolute-timestamp fallback). -/
def _ensure_hours_series (time_col_name : String) (s : List (Option ℚ)) :
    Option (List (Option ℚ)) :=
  if offsetLikeName time_col_name then
    match nanmedianQ (s.filterMap id) with
    | none => none
    | some med =>
      if 500 < |med| then some (s.map (Option.map (fun v => v / 60))) else some s
  else if (s.filterMap id).isEmpty then none
  else some s

/-! ### Column resolver
From `pick` in `Laboratory variables/Creatinine + blood sodium + blood
potassium + hemoglobin/eICU.py` (the `mimic_IV.py` `pick` is the one-candidate
special case; `Death/mimic_IV_death.py::resolve_columns` is the batched
variant). -/

/-- `pick(df, *candidates)`: for each candidate in order, scan the headers and
return the first header equal to it case-insensitively; raise a KeyError
naming the tried candidates when none matches. -/
def pick (headers : List String) (candidates : List String) : Except String String :=
  match candidates.findSome?
      (fun name => headers.find? (fun c => decide (strLower c = strLower name))) with
  | some c => Except.ok c
  | none => Except.error ("Missing required column. Tried: " ++ joinComma candidates)

/-- Modelled from the spec: "return the first header whose lowercased form
matches a candidate, case-insensitively" read with header-order priority, for
comparison against the source's candidate-order `pick`. -/
def pickSpecFirstHeader (headers candidates : List String) : Option String :=
  headers.find? (fun c => candidates.any (fun name => decide (strLower c = strLower name)))

/-! ### Chunked id filter
From `filter_one_file` and `load_id_set` in `Extract patient data/eICU.py`.
A CSV is a header row plus data rows; `parse` stands for
`pd.to_numeric(..., errors="coerce")` restricted to integer results (a float
that is not in the integer id set never matches `isin`). -/

/-- `find_id_col`: index of the first header equal to `patientunitstayid`
after strip and lowercase. -/
def find_id_col_idx (cols : List String) : Option ℕ :=
  cols.findIdx? (fun c => decide (strLower (strTrim c) = "patientunitstayid"))

/-- The per-row keep test: the id cell must parse to an integer that is in the
baseline id set. -/
def rowKeep (parse : String → Option ℤ) (idSet : List ℤ) (idx : ℕ)
    (row : List String) : Bool :=
  match parse (row.getD idx "") with
  | some v => decide (v ∈ idSet)
  | none => false

/-- Worker for `chunkBy`; `fuel` is instantiated with the row count. -/
def chunkAux {α : Type} (n : ℕ) : ℕ → List α → List (List α)
  | _, [] => []
  | 0, l => [l]
  | fuel + 1, l => l.take n :: chunkAux n fuel (l.drop n)

/-- `pd.read_csv(src, chunksize=n)`: consecutive blocks of at most `n` rows. -/
def chunkBy {α : Type} (n : ℕ) (l : List α) : List (List α) := chunkAux n l.length l

/-- `filter_one_file` on one input table: `none` when no id column is found
(the file is skipped and nothing is written); otherwise the written output,
which is the header row (written unconditionally first) followed by the
matching rows of each chunk in order. -/
def filter_one_file (parse : String → Option ℤ) (idSet : List ℤ) (chunksize : ℕ)
    (header : List String) (rows : List (List String)) : Option (List (List String)) :=
  match find_id_col_idx header with
  | none => none
  | some idx =>
    some (header :: (chunkBy chunksize rows).flatMap (fun ch => ch.filter (rowKeep parse idSet idx)))

/-! ### Helper lemmas: the bin grid -/

lemma grid_ends_eq :
    GRID_ENDS = (List.range 356).map (fun i : ℕ => (10 : ℚ) + 2 * (i : ℚ)) := by
  with_unfolding_all decide

lemma n_bins_eq : N_BINS = 356 := by
  rw [N_BINS, grid_ends_eq, List.length_map, List.length_range]

lemma grid_ends_nodup : GRID_ENDS.Nodup := by
  rw [grid_ends_eq]
  refine List.Nodup.map ?_ (List.nodup_range 356)
  intro i j hij
  simp only at hij
  have h2 : ((i : ℚ)) = (j : ℚ) := by linarith
  exact_mod_cast h2

/-! ### Helper lemmas: stable insertion sort -/

lemma insertLE_perm {α : Type} (le : α → α → Bool) (x : α) (l : List α) :
    List.Perm (insertLE le x l) (x :: l) := by
  induction l with
  | nil => exact List.Perm.refl _
  | cons z zs ih =>
    simp only [insertLE]
    split
    · exact (ih.cons z).trans (List.Perm.swap x z zs)
    · exact List.Perm.refl _

lemma foldl_insertLE_perm {α : Type} (le : α → α → Bool) :
    ∀ (l acc : List α),
      List.Perm (l.foldl (fun acc2 x => insertLE le x acc2) acc) (l ++ acc) := by
  intro l
  induction l with
  | nil => intro acc; simp
  | cons x xs ih =>
    intro acc
    simp only [List.foldl_cons, List.cons_append]
    refine ((ih (insertLE le x acc)).trans ?_).trans List.perm_middle
    exact List.Perm.append_left xs (insertLE_perm le x acc)

lemma sortLE_perm {α : Type} (le : α → α → Bool) (l : List α) :
    List.Perm (sortLE le l) l := by
  simpa using foldl_insertLE_perm le l []

lemma mem_insertLE {α : Type} {le : α → α → Bool} {x y : α} {l : List α} :
    y ∈ insertLE le x l ↔ y = x ∨ y ∈ l :=
  (insertLE_perm le x l).mem_iff.trans (by simp)

lemma insertLE_sorted {α : Type} (le : α → α → Bool)
    (htot : ∀ a b, le a b = true ∨ le b a = true)
    (htrans : ∀ a b c, le a b = true → le b c = true → le a c = true)
    (x : α) : ∀ (l : List α), l.Pairwise (fun a b => le a b = true) →
    (insertLE le x l).Pairwise (fun a b => le a b = true) := by
  intro l
  induction l with
  | nil => intro _; simp [insertLE]
  | cons y ys ih =>
    intro hl
    obtain ⟨hy, hys⟩ := List.pairwise_cons.mp hl
    simp only [insertLE]
    split
    case isTrue hc =>
      refine List.pairwise_cons.mpr ⟨?_, ih hys⟩
      intro z hz
      rcases mem_insertLE.mp hz with rfl | hz2
      · exact hc
      · exact hy z hz2
    case isFalse hc =>
      have hxy : le x y = true := by
        rcases htot x y with h | h
        · exact h
        · exact absurd h hc
      refine List.pairwise_cons.mpr ⟨?_, hl⟩
      intro z hz
      rcases List.mem_cons.mp hz with rfl | hz2
      · exact hxy
      · exact htrans x y z hxy (hy z hz2)

lemma sortLE_sorted {α : Type} (le : α → α → Bool)
    (htot : ∀ a b, le a b = true ∨ le b a = true)
    (htrans : ∀ a b c, le a b = true → le b c = true → le a c = true)
    (l : List α) : (sortLE le l).Pairwise (fun a b => le a b = true) := by
  suffices h : ∀ (l2 acc : List α), acc.Pairwise (fun a b => le a b = true) →
      (l2.foldl (fun acc2 x => insertLE le x acc2) acc).Pairwise
        (fun a b => le a b = true) from h l [] List.Pairwise.nil
  intro l2
  induction l2 with
  | nil => intro acc hacc; simpa using hacc
  | cons x xs ih =>
    intro acc hacc
    simp only [List.foldl_cons]
    exact ih _ (insertLE_sorted le htot htrans x acc hacc)

lemma getLast?_mem_own {α : Type} : ∀ {l : List α} {y : α}, l.getLast? = some y → y ∈ l := by
  intro l
  induction l with
  | nil => intro y hy; simp at hy
  | cons a t ih =>
    intro y hy
    cases t with
    | nil =>
      simp only [List.getLast?_singleton, Option.some.injEq] at hy
      simp [hy]
    | cons b t2 =>
      rw [List.getLast?_cons_cons] at hy
      exact List.mem_cons_of_mem a (ih hy)

lemma pairwise_getLast? {α : Type} {R : α → α → Prop} :
    ∀ {l : List α}, l.Pairwise R → ∀ {y : α}, l.getLast? = some y →
    ∀ {x : α}, x ∈ l → x = y ∨ R x y := by
  intro l
  induction l with
  | nil => intro _ y hy; simp at hy
  | cons a t ih =>
    intro hp y hy x hx
    obtain ⟨ha, ht⟩ := List.pairwise_cons.mp hp
    cases t with
    | nil =>
      simp only [List.getLast?_singleton, Option.some.injEq] at hy
      simp only [List.mem_singleton] at hx
      left; rw [hx, hy]
    | cons b t2 =>
      rw [List.getLast?_cons_cons] at hy
      rcases List.mem_cons.mp hx with rfl | hx2
      · exact Or.inr (ha y (getLast?_mem_own hy))
      · exact ih ht hy hx2

/-! ### Helper lemmas: the sort order on binned rows -/

lemma rowLE_total (a b : Obs × ℚ) : rowLE a b = true ∨ rowLE b a = true := by
  simp only [rowLE, decide_eq_true_eq]
  exact le_total _ _

lemma rowLE_trans (a b c : Obs × ℚ) :
    rowLE a b = true → rowLE b c = true → rowLE a c = true := by
  simp only [rowLE, decide_eq_true_eq]
  exact le_trans

lemma rowLE_hours {a b : Obs × ℚ} (hid : a.1.id = b.1.id) (hbin : a.2 = b.2)
    (h : rowLE a b = true) : a.1.hours ≤ b.1.hours := by
  simp only [rowLE, rowKey, decide_eq_true_eq, Prod.Lex.le_iff] at h
  rcases h with h1 | ⟨_, h2⟩
  · rw [hid] at h1; exact absurd h1 (lt_irrefl _)
  · rcases h2 with h3 | ⟨_, h4⟩
    · rw [hbin] at h3; exact absurd h3 (lt_irrefl _)
    · exact h4

lemma sortedBinned_sorted (obs : List Obs) :
    (sortedBinned obs).Pairwise (fun a b => rowLE a b = true) :=
  sortLE_sorted rowLE rowLE_total rowLE_trans _

lemma groupRows_sorted (obs : List Obs) (i : ℤ) (b : ℚ) :
    (groupRows obs i b).Pairwise (fun a c => rowLE a c = true) :=
  List.Pairwise.sublist (List.filter_sublist _) (sortedBinned_sorted obs)

lemma mem_groupRows {obs : List Obs} {i : ℤ} {b : ℚ} {r : Obs × ℚ} :
    r ∈ groupRows obs i b ↔ r ∈ binnedRows obs ∧ r.1.id = i ∧ r.2 = b := by
  unfold groupRows sortedBinned
  rw [List.mem_filter, (sortLE_perm rowLE (binnedRows obs)).mem_iff]
  simp [decide_eq_true_eq]

/-! ### Helper lemmas: panel assembly -/

/-- The aggregate's `(entity, bin)` join keys are pairwise distinct. -/
def nodupKeys (agg : List AggRow) : Prop :=
  (agg.map (fun a => (a.id, a.relHour))).Nodup

lemma filterMap_keys_nodup (f : ℤ × ℚ → Option AggRow)
    (hf : ∀ k a, f k = some a → (a.id, a.relHour) = k) :
    ∀ (keys : List (ℤ × ℚ)), keys.Nodup → nodupKeys (keys.filterMap f) := by
  intro keys
  induction keys with
  | nil => intro _; simp [nodupKeys]
  | cons k ks ih =>
    intro hn
    obtain ⟨hk, hks⟩ := List.nodup_cons.mp hn
    rw [List.filterMap_cons]
    cases hfk : f k with
    | none => exact ih hks
    | some a =>
      rw [nodupKeys, List.map_cons, List.nodup_cons]
      refine ⟨?_, ih hks⟩
      intro hmem
      apply hk
      obtain ⟨a2, ha2, hkey⟩ := List.mem_map.mp hmem
      obtain ⟨k2, hk2, hfk2⟩ := List.mem_filterMap.mp ha2
      have h1 : (a.id, a.relHour) = k := hf k a hfk
      have h2 : (a2.id, a2.relHour) = k2 := hf k2 a2 hfk2
      rw [← h1, ← hkey, h2]
      exact hk2

lemma bin_one_variable_nodupKeys (obs : List Obs) : nodupKeys (_bin_one_variable obs) := by
  refine filterMap_keys_nodup _ ?_ _ (List.nodup_dedup _)
  intro k a ha
  cases hlast : (groupRows obs k.1 k.2).getLast? with
  | none =>
    rw [hlast, Option.map_none'] at ha
    exact Option.noConfusion ha
  | some r =>
    rw [hlast] at ha
    simp only [Option.map_some', Option.some.injEq] at ha
    rw [← ha]

lemma aggMatches_eq_find (agg : List AggRow) (i : ℤ) (g : ℚ) (h : nodupKeys agg) :
    aggMatches agg i g =
      (agg.find? (fun a => decide (a.id = i ∧ a.relHour = g))).toList := by
  induction agg with
  | nil => rfl
  | cons a rest ih =>
    simp only [nodupKeys, List.map_cons, List.nodup_cons] at h
    obtain ⟨hnot, hrest⟩ := h
    by_cases hp : a.id = i ∧ a.relHour = g
    · have hfilter : aggMatches rest i g = [] := by
        rw [aggMatches, List.filter_eq_nil_iff]
        intro x hx hpx
        simp only [decide_eq_true_eq] at hpx
        apply hnot
        refine List.mem_map.mpr ⟨x, hx, ?_⟩
        rw [hpx.1, hpx.2, hp.1, hp.2]
      have hpd : (decide (a.id = i ∧ a.relHour = g)) = true := by
        simp [hp.1, hp.2]
      rw [aggMatches, List.filter_cons, if_pos hpd, List.find?_cons, hpd]
      rw [aggMatches] at hfilter
      rw [hfilter]
      rfl
    · have hpd : (decide (a.id = i ∧ a.relHour = g)) = false := by
        simpa using hp
      rw [aggMatches, List.filter_cons, if_neg (by rw [hpd]; exact Bool.false_ne_true),
        List.find?_cons, hpd]
      exact ih hrest

lemma mergeVar_eq_map (panel : List PanelRow) (agg : List AggRow) (h : nodupKeys agg) :
    mergeVar panel agg = panel.map
      (fun r => ⟨r.id, r.relHour, r.cells ++ [cellOf (lookupAgg agg r.id r.relHour)]⟩) := by
  induction panel with
  | nil => rfl
  | cons r rest ih =>
    rw [mergeVar, List.flatMap_cons, List.map_cons]
    rw [mergeVar] at ih
    rw [ih]
    rw [aggMatches_eq_find agg r.id r.relHour h, lookupAgg]
    cases agg.find? (fun a => decide (a.id = r.id ∧ a.relHour = r.relHour)) with
    | none => rfl
    | some a => rfl

lemma assemble_eq : ∀ (aggs : List (List AggRow)), (∀ agg ∈ aggs, nodupKeys agg) →
    ∀ (base : List PanelRow), aggs.foldl mergeVar base = base.map
      (fun r => ⟨r.id, r.relHour,
        r.cells ++ aggs.map (fun agg => cellOf (lookupAgg agg r.id r.relHour))⟩) := by
  intro aggs
  induction aggs with
  | nil =>
    intro _ base
    simp only [List.foldl_nil, List.map_nil, List.append_nil]
    exact (List.map_id base).symm
  | cons agg aggs2 ih =>
    intro hn base
    rw [List.foldl_cons, ih (fun a ha => hn a (List.mem_cons_of_mem agg ha)),
      mergeVar_eq_map base agg (hn agg (List.mem_cons_self agg aggs2)), List.map_map]
    refine List.map_congr_left ?_
    intro r _
    simp [List.append_assoc]

lemma skeleton_length (ids : List ℤ) : (skeleton ids).length = ids.length * N_BINS := by
  induction ids with
  | nil => simp [skeleton]
  | cons i t ih =>
    rw [skeleton, List.flatMap_cons, List.length_append, List.length_map]
    rw [skeleton] at ih
    rw [ih, List.length_cons, N_BINS, Nat.succ_mul, Nat.add_comm]

lemma skeleton_map_key (ids : List ℤ) :
    (skeleton ids).map (fun r => (r.id, r.relHour)) =
      ids.flatMap (fun i => GRID_ENDS.map (fun g => (i, g))) := by
  induction ids with
  | nil => rfl
  | cons i t ih =>
    rw [skeleton, List.flatMap_cons, List.map_append, List.map_map, List.flatMap_cons]
    rw [skeleton] at ih
    rw [ih]
    rfl
lemma skeleton_keys_nodup : ∀ (ids : List ℤ), ids.Nodup →
    (ids.flatMap (fun a => GRID_ENDS.map (fun g2 => (a, g2)))).Nodup := by
  intro ids
  induction ids with
  | nil => intro _; simp
  | cons a t ih =>
    intro hn
    obtain ⟨ha, ht⟩ := List.nodup_cons.mp hn
    rw [List.flatMap_cons]
    refine List.Nodup.append ?_ (ih ht) ?_
    · refine List.Nodup.map ?_ grid_ends_nodup
      intro x y hxy
      simpa using hxy
    · intro p hp1 hp2
      obtain ⟨g2, _, hpair⟩ := List.mem_map.mp hp1
      obtain ⟨a2, ha2, hmem2⟩ := List.mem_flatMap.mp hp2
      obtain ⟨g3, _, hpair3⟩ := List.mem_map.mp hmem2
      apply ha
      have he : a = a2 := by
        rw [← hpair] at hpair3
        exact (congrArg Prod.fst hpair3).symm
      rw [he]
      exact ha2

lemma skeleton_keys_mem (ids : List ℤ) (i : ℤ) (g : ℚ) :
    (i, g) ∈ ids.flatMap (fun a => GRID_ENDS.map (fun g2 => (a, g2))) ↔
      i ∈ ids ∧ g ∈ GRID_ENDS := by
  simp only [List.mem_flatMap, List.mem_map, Prod.mk.injEq]
  constructor
  · rintro ⟨a, ha, g2, hg2, rfl, rfl⟩
    exact ⟨ha, hg2⟩
  · rintro ⟨hi, hg⟩
    exact ⟨i, hi, g, hg, rfl, rfl⟩

/-! ## Claim theorems -/

/-- C1, counterexample: the claim states that a relative-hour of exactly 8.0
is excluded, but the window mask is `abs_h >= ABS_START_H`, so 8.0 is inside
the window and is assigned bin endpoint 10. -/
theorem c1_binner_window_counterexample :
    _assign_bin_end_hours_abs 8 = some 10 ∧ ¬ _assign_bin_end_hours_abs 8 = none := by
  with_unfolding_all decide

/-- C1 (amended): for every signed relative-hour `h` with `a = |h|` and window
parameters (8, 720, 2), the value is excluded exactly when `a < 8` or
`a ≥ 720`; otherwise its bin endpoint is `8 + idx * 2` with
`idx = ceil((a - 8) / 2)` clamped to `[1, 356]`; the endpoint sequence is
exactly 10, 12, ..., 720 (356 values); a relative-hour of exactly 8.0 is
included and maps to bin 10 (not excluded, as the original claim said);
719.999 maps to bin 720; 720.0 is excluded. -/
theorem c1_binner_window_amended :
    (∀ h : ℚ, _assign_bin_end_hours_abs h = none ↔ |h| < ABS_START_H ∨ ABS_END_H ≤ |h|)
    ∧ (∀ h : ℚ, ABS_START_H ≤ |h| → |h| < ABS_END_H →
        _assign_bin_end_hours_abs h =
          some (ABS_START_H +
            ((max 1 (min ((N_BINS : ℤ)) ⌈(|h| - ABS_START_H) / BIN_H⌉) : ℤ) : ℚ) * BIN_H))
    ∧ N_BINS = 356
    ∧ GRID_ENDS = (List.range 356).map (fun i : ℕ => (10 : ℚ) + 2 * (i : ℚ))
    ∧ (∀ (h b : ℚ), _assign_bin_end_hours_abs h = some b → b ∈ GRID_ENDS)
    ∧ _assign_bin_end_hours_abs 8 = some 10
    ∧ _assign_bin_end_hours_abs (719999/1000) = some 720
    ∧ _assign_bin_end_hours_abs 720 = none := by
  refine ⟨?_, ?_, n_bins_eq, grid_ends_eq, ?_, ?_, ?_, ?_⟩
  · intro h
    simp only [_assign_bin_end_hours_abs]
    split_ifs with hc
    · have hnot : ¬(|h| < ABS_START_H ∨ ABS_END_H ≤ |h|) := by
        push_neg
        exact ⟨hc.1, hc.2⟩
      simp [hnot]
    · have hyes : |h| < ABS_START_H ∨ ABS_END_H ≤ |h| := by
        rcases not_and_or.mp hc with h1 | h2
        · exact Or.inl (not_le.mp h1)
        · exact Or.inr (not_lt.mp h2)
      simp [hyes]
  · intro h h1 h2
    simp only [_assign_bin_end_hours_abs]
    rw [if_pos ⟨h1, h2⟩]
  · intro h b hb
    simp only [_assign_bin_end_hours_abs] at hb
    by_cases hc : ABS_START_H ≤ |h| ∧ |h| < ABS_END_H
    · rw [if_pos hc] at hb
      have hbb := Option.some.inj hb
      set j : ℤ := max 1 (min ((N_BINS : ℤ)) ⌈(|h| - ABS_START_H) / BIN_H⌉) with hj
      have hj1 : 1 ≤ j := le_max_left 1 _
      have hj2 : j ≤ 356 := by
        rw [hj, n_bins_eq]
        exact max_le (by norm_num) (min_le_left _ _)
      rw [grid_ends_eq]
      refine List.mem_map.mpr ⟨(j - 1).toNat, List.mem_range.mpr (by omega), ?_⟩
      have h3 : ((j - 1).toNat : ℤ) = j - 1 := Int.toNat_of_nonneg (by omega)
      have h4 : (((j - 1).toNat : ℕ) : ℚ) = (j : ℚ) - 1 := by
        have h5 : (((j - 1).toNat : ℤ) : ℚ) = ((j - 1 : ℤ) : ℚ) := by
          exact_mod_cast congrArg (fun z : ℤ => (z : ℚ)) h3
        push_cast at h5
        exact_mod_cast h5
      rw [h4, ← hbb, ABS_START_H, BIN_H]
      ring
    · rw [if_neg hc] at hb
      exact Option.noConfusion hb
  · with_unfolding_all decide
  · with_unfolding_all decide
  · with_unfolding_all decide

/-- C1, witness: the clamped-index formula instantiated at the in-window
relative-hour 11. -/
theorem c1_binner_window_witness :
    _assign_bin_end_hours_abs 11 =
      some (ABS_START_H +
        ((max 1 (min ((N_BINS : ℤ)) ⌈(|(11 : ℚ)| - ABS_START_H) / BIN_H⌉) : ℤ) : ℚ) * BIN_H) :=
  c1_binner_window_amended.2.1 11 (by rw [ABS_START_H]; norm_num)
    (by rw [ABS_END_H]; norm_num)

/-- C4: binning is symmetric in sign — for every relative-hour `h` the bin of
`-h` equals the bin of `h` (the binner only looks at `|h|`), and in particular
-11.0 and +11.0 both map to bin endpoint 12. -/
theorem c4_symmetric_binning :
    (∀ h : ℚ, _assign_bin_end_hours_abs (-h) = _assign_bin_end_hours_abs h)
    ∧ _assign_bin_end_hours_abs (-11) = some 12
    ∧ _assign_bin_end_hours_abs 11 = some 12 := by
  refine ⟨?_, ?_, ?_⟩
  · intro h
    simp only [_assign_bin_end_hours_abs, abs_neg]
  · with_unfolding_all decide
  · with_unfolding_all decide

/-- C3: last-within-bin selection — every row of `_bin_one_variable` carries
the value of a qualifying binned observation whose signed resolved
relative-hour is maximal among all observations of its (entity, bin) group. -/
theorem c3_last_within_bin (obs : List Obs) (a : AggRow)
    (ha : a ∈ _bin_one_variable obs) :
    ∃ r, r ∈ binnedRows obs ∧ r.1.id = a.id ∧ r.2 = a.relHour ∧ a.val = r.1.val ∧
      ∀ r2, r2 ∈ binnedRows obs → r2.1.id = a.id → r2.2 = a.relHour →
        r2.1.hours ≤ r.1.hours := by
  obtain ⟨k, _, hfk⟩ := List.mem_filterMap.mp ha
  cases hlast : (groupRows obs k.1 k.2).getLast? with
  | none =>
    rw [hlast, Option.map_none'] at hfk
    exact Option.noConfusion hfk
  | some r =>
    rw [hlast, Option.map_some'] at hfk
    have hfk2 := Option.some.inj hfk
    have hid : a.id = k.1 := by rw [← hfk2]
    have hbin : a.relHour = k.2 := by rw [← hfk2]
    have hval : a.val = r.1.val := by rw [← hfk2]
    have hrmem : r ∈ groupRows obs k.1 k.2 := getLast?_mem_own hlast
    obtain ⟨hrb, hrid, hrbin⟩ := mem_groupRows.mp hrmem
    refine ⟨r, hrb, by rw [hid]; exact hrid, by rw [hbin]; exact hrbin, hval, ?_⟩
    intro r2 h2b h2id h2bin
    have h2mem : r2 ∈ groupRows obs k.1 k.2 :=
      mem_groupRows.mpr ⟨h2b, by rw [← hid]; exact h2id, by rw [← hbin]; exact h2bin⟩
    rcases pairwise_getLast? (groupRows_sorted obs k.1 k.2) hlast h2mem with rfl | hR
    · exact le_refl _
    · exact rowLE_hours (by rw [h2id, hid, hrid]) (by rw [h2bin, hbin, hrbin]) hR

/-- C3, witness: two observations at raw relative hours 10.1 and 10.9 for the
same entity both map to bin 12, the binning step retains exactly the 10.9
record, and that record's hours dominate its (entity, bin) group. -/
theorem c3_last_within_bin_witness :
    _bin_one_variable [⟨1, 101/10, some 5⟩, ⟨1, 109/10, some 7⟩] = [⟨1, 12, some 7⟩]
    ∧ ∃ r, r ∈ binnedRows [⟨1, 101/10, some 5⟩, ⟨1, 109/10, some 7⟩] ∧
        r.1.id = (⟨1, 12, some 7⟩ : AggRow).id ∧
        r.2 = (⟨1, 12, some 7⟩ : AggRow).relHour ∧
        (⟨1, 12, some 7⟩ : AggRow).val = r.1.val ∧
        ∀ r2, r2 ∈ binnedRows [⟨1, 101/10, some 5⟩, ⟨1, 109/10, some 7⟩] →
          r2.1.id = (⟨1, 12, some 7⟩ : AggRow).id →
          r2.2 = (⟨1, 12, some 7⟩ : AggRow).relHour → r2.1.hours ≤ r.1.hours :=
  ⟨by with_unfolding_all decide,
   c3_last_within_bin _ _ (by with_unfolding_all decide)⟩

lemma aggsOf_nodupKeys (results : List (Option (List Obs))) :
    ∀ agg ∈ aggsOf results, nodupKeys agg := by
  intro agg hagg
  obtain ⟨r, _, hr⟩ := List.mem_map.mp hagg
  cases r with
  | none => rw [← hr]; simp [nodupKeys]
  | some obs => rw [← hr]; exact bin_one_variable_nodupKeys obs

lemma mainPanel_eq (rawIds : List ℤ) (results : List (Option (List Obs))) :
    mainPanel rawIds results = (skeleton rawIds.dedup).map
      (fun r => ⟨r.id, r.relHour,
        r.cells ++ (aggsOf results).map
          (fun agg => cellOf (lookupAgg agg r.id r.relHour))⟩) :=
  assemble_eq (aggsOf results) (aggsOf_nodupKeys results) (skeleton rawIds.dedup)

lemma skeleton_cells_nil (ids : List ℤ) : ∀ r ∈ skeleton ids, r.cells = [] := by
  intro r hr
  obtain ⟨i, _, hmem⟩ := List.mem_flatMap.mp hr
  obtain ⟨g, _, hpair⟩ := List.mem_map.mp hmem
  rw [← hpair]

/-- C2: panel density — the assembled panel has exactly
`|distinct entities| * N_BINS` rows (`N_BINS = 356`), its (entity, bin) keys
are pairwise distinct, and a key occurs iff its entity is in the deduplicated
base cohort and its bin endpoint is in the fixed grid, for every cohort and
every combination of per-analyte observation lists (including empty and
failed ones). -/
theorem c2_panel_density (rawIds : List ℤ) (results : List (Option (List Obs))) :
    (mainPanel rawIds results).length = rawIds.dedup.length * N_BINS
    ∧ N_BINS = 356
    ∧ ((mainPanel rawIds results).map (fun r => (r.id, r.relHour))).Nodup
    ∧ ∀ (i : ℤ) (g : ℚ),
        (i, g) ∈ (mainPanel rawIds results).map (fun r => (r.id, r.relHour)) ↔
          i ∈ rawIds.dedup ∧ g ∈ GRID_ENDS := by
  have hkeys : (mainPanel rawIds results).map (fun r => (r.id, r.relHour)) =
      rawIds.dedup.flatMap (fun a => GRID_ENDS.map (fun g2 => (a, g2))) := by
    rw [mainPanel_eq, List.map_map]
    exact skeleton_map_key _
  refine ⟨?_, n_bins_eq, ?_, ?_⟩
  · rw [mainPanel_eq, List.length_map, skeleton_length]
  · rw [hkeys]
    exact skeleton_keys_nodup _ (List.nodup_dedup rawIds)
  · intro i g
    rw [hkeys]
    exact skeleton_keys_mem _ i g

/-- C5: analyte-failure resilience — when the `j`-th analyte's extraction
failed (its result is the all-missing placeholder), the panel is still fully
assembled with the same dense row count, every row has one cell per analyte,
each analyte's cell is computed from that analyte's own aggregate alone, and
the failed analyte's cell is `(null value, obs flag 0)` in every row. -/
theorem c5_analyte_failure_resilience (rawIds : List ℤ)
    (results : List (Option (List Obs))) (j : ℕ)
    (hj : results[j]? = some none) :
    (mainPanel rawIds results).length = rawIds.dedup.length * N_BINS
    ∧ (∀ r ∈ mainPanel rawIds results,
        r.cells = (aggsOf results).map (fun agg => cellOf (lookupAgg agg r.id r.relHour)))
    ∧ (∀ r ∈ mainPanel rawIds results, r.cells.length = results.length)
    ∧ (∀ r ∈ mainPanel rawIds results, r.cells[j]? = some (none, 0)) := by
  have hcells : ∀ r ∈ mainPanel rawIds results,
      r.cells = (aggsOf results).map (fun agg => cellOf (lookupAgg agg r.id r.relHour)) := by
    intro r hr
    rw [mainPanel_eq] at hr
    obtain ⟨s, hs, hpair⟩ := List.mem_map.mp hr
    rw [← hpair]
    simp only
    rw [skeleton_cells_nil _ s hs, List.nil_append]
  refine ⟨?_, hcells, ?_, ?_⟩
  · rw [mainPanel_eq, List.length_map, skeleton_length]
  · intro r hr
    rw [hcells r hr, List.length_map, aggsOf, List.length_map]
  · intro r hr
    rw [hcells r hr, List.getElem?_map, aggsOf, List.getElem?_map, hj]
    rfl

/-- C5, witness: a one-entity cohort with a single failed analyte still yields
the dense one-analyte panel row count. -/
theorem c5_analyte_failure_resilience_witness :
    (mainPanel [(1 : ℤ)] [none]).length = [(1 : ℤ)].dedup.length * N_BINS :=
  (c5_analyte_failure_resilience [(1 : ℤ)] [none] 0 rfl).1

/-- C6: range cleaner — a value strictly outside the closed range `[lo, hi]`
is nulled while in-range values and the rows themselves are retained; for
creatinine, potassium and hemoglobin every value `≤ 0` is nulled by the step
that runs before the range check, while albumin and sodium have no
non-positive-value rule (their non-positive mask is the identity). -/
theorem c6_range_cleaner :
    (∀ (lo hi x : ℚ), (x < lo ∨ hi < x) → maskRange lo hi (some x) = none)
    ∧ (∀ (lo hi x : ℚ), lo ≤ x → x ≤ hi → maskRange lo hi (some x) = some x)
    ∧ (∀ (a : Analyte) (rows : List (ℤ × Option ℚ)),
        (cleanColumn a rows).length = rows.length)
    ∧ (∀ (a : Analyte) (x : ℚ),
        (a = Analyte.Creatinine ∨ a = Analyte.Potassium ∨ a = Analyte.Hemoglobin) →
        x ≤ 0 → maskNonPos a (some x) = none ∧ cleanValue a (some x) = none)
    ∧ (∀ x : ℚ, maskNonPos Analyte.Albumin (some x) = some x)
    ∧ (∀ x : ℚ, maskNonPos Analyte.Sodium (some x) = some x) := by
  have hmask : ∀ (a : Analyte) (x : ℚ), nonPosNullRule a = true → x ≤ 0 →
      maskNonPos a (some x) = none := by
    intro a x hrule hx
    simp [maskNonPos, hrule, hx]
  refine ⟨?_, ?_, ?_, ?_, ?_, ?_⟩
  · intro lo hi x hx
    simp [maskRange, hx]
  · intro lo hi x h1 h2
    simp only [maskRange]
    rw [if_neg]
    push_neg
    exact ⟨h1, h2⟩
  · intro a rows
    rw [cleanColumn, List.length_map]
  · intro a x ha hx
    have hrule : nonPosNullRule a = true := by
      rcases ha with rfl | rfl | rfl <;> rfl
    refine ⟨hmask a x hrule hx, ?_⟩
    rw [cleanValue, hmask a x hrule hx]
    rfl
  · intro x
    simp [maskNonPos, nonPosNullRule]
  · intro x
    simp [maskNonPos, nonPosNullRule]

/-- C6, witness: an albumin value of 6 g/dL is nulled by the range [2, 5], a
sodium value of 140 inside [110, 170] is kept, and a potassium value of 0 is
nulled by the non-positive rule. -/
theorem c6_range_cleaner_witness :
    maskRange 2 5 (some 6) = none
    ∧ maskRange (110 : ℚ) 170 (some 140) = some 140
    ∧ maskNonPos Analyte.Potassium (some 0) = none :=
  ⟨c6_range_cleaner.1 2 5 6 (by norm_num),
   c6_range_cleaner.2.1 110 170 140 (by norm_num) (by norm_num),
   (c6_range_cleaner.2.2.2.1 Analyte.Potassium 0 (Or.inr (Or.inl rfl)) (le_refl 0)).1⟩

/-- C7: unit normalizer — both unicode micro variants fold to `u`,
`milliequivalents/l` standardizes to `meq/l`, sodium and potassium treat
`meq/l` and `mmol/l` as numerically identical (value unchanged, label
rewritten to `mmol/l`), and creatinine converts 884 umol/L to 10.0 mg/dL
(division by 88.4) and 100 mg/L to 10.0 mg/dL (division by 10). -/
theorem c7_unit_normalizer :
    normalize_unit "µmol/l" = "umol/l"
    ∧ normalize_unit "μmol/l" = "umol/l"
    ∧ normalize_unit "milliequivalents/l" = "meq/l"
    ∧ (∀ x : ℚ, convert_units Analyte.Sodium x "meq/l" = (x, "mmol/l"))
    ∧ (∀ x : ℚ, convert_units Analyte.Sodium x "mmol/l" = (x, "mmol/l"))
    ∧ (∀ x : ℚ, convert_units Analyte.Potassium x "meq/l" = (x, "mmol/l"))
    ∧ (∀ x : ℚ, convert_units Analyte.Potassium x "mmol/l" = (x, "mmol/l"))
    ∧ convert_units Analyte.Creatinine 884 "µmol/l" = (10, "mg/dl")
    ∧ convert_units Analyte.Creatinine 100 "mg/l" = (10, "mg/dl") := by
  have hmeq : normalize_unit "meq/l" = "meq/l" := by decide
  have hmmol : normalize_unit "mmol/l" = "mmol/l" := by decide
  have hmicro : normalize_unit "µmol/l" = "umol/l" := by decide
  have hmgl : normalize_unit "mg/l" = "mg/l" := by decide
  refine ⟨hmicro, by decide, by decide, ?_, ?_, ?_, ?_, ?_, ?_⟩
  · intro x
    simp only [convert_units, hmeq]
    rw [if_neg (by decide), if_pos (by decide)]
  · intro x
    simp only [convert_units, hmmol]
    rw [if_neg (by decide), if_pos (by decide)]
  · intro x
    simp only [convert_units, hmeq]
    rw [if_neg (by decide), if_pos (by decide)]
  · intro x
    simp only [convert_units, hmmol]
    rw [if_neg (by decide), if_pos (by decide)]
  · simp only [convert_units, hmicro]
    rw [if_neg (by decide), if_pos (by decide), if_pos (by decide)]
    refine Prod.ext ?_ rfl
    norm_num
  · simp only [convert_units, hmgl]
    rw [if_pos (by decide), if_pos (by decide)]
    refine Prod.ext ?_ rfl
    norm_num

lemma nanmedianQ_isSome (xs : List ℚ) (hne : xs ≠ []) :
    ∃ m, nanmedianQ xs = some m := by
  simp only [nanmedianQ]
  have hlen : (sortLE (fun a b => decide (a ≤ b)) xs).length = xs.length :=
    (sortLE_perm _ xs).length_eq
  have hpos : 0 < (sortLE (fun a b => decide (a ≤ b)) xs).length := by
    rw [hlen]
    exact List.length_pos.mpr hne
  rw [if_neg (by omega)]
  by_cases hodd : (sortLE (fun a b => decide (a ≤ b)) xs).length % 2 = 1
  · rw [if_pos hodd, List.get?_eq_get (by omega)]
    exact ⟨_, rfl⟩
  · rw [if_neg hodd, List.get?_eq_get (show _ / 2 - 1 < _ by omega),
      List.get?_eq_get (by omega)]
    exact ⟨_, rfl⟩

/-- C8: relative-time resolver — for every offset-like column name (contains
`offset`, ends with `_charttime`, or equals `hours`/`hour`) with at least one
numeric value, the series is kept and divided by 60 exactly when the absolute
median of its non-null values exceeds 500, else used unchanged; any other
column with at least one numeric value is used directly as hours. -/
theorem c8_relative_time_resolver (time_col_name : String) (s : List (Option ℚ)) :
    (offsetLikeName time_col_name = true → s.filterMap id ≠ [] →
      ∃ med, nanmedianQ (s.filterMap id) = some med ∧
        _ensure_hours_series time_col_name s =
          some (if 500 < |med| then s.map (Option.map (fun v => v / 60)) else s))
    ∧ (offsetLikeName time_col_name = false → s.filterMap id ≠ [] →
      _ensure_hours_series time_col_name s = some s) := by
  constructor
  · intro hname hne
    obtain ⟨m, hm⟩ := nanmedianQ_isSome _ hne
    refine ⟨m, hm, ?_⟩
    simp only [_ensure_hours_series, hname, if_true, hm]
    split_ifs with hmed
    · rfl
    · rfl
  · intro hname hne
    simp only [_ensure_hours_series, hname, Bool.false_eq_true, if_false]
    rw [if_neg]
    simp only [List.isEmpty_iff]
    exact hne

/-- C8, witness: a `labresultoffset` series with non-null values 600 and 1200
(median 900, so minutes) resolves to the series divided by 60. -/
theorem c8_relative_time_resolver_witness :
    ∃ med, nanmedianQ ([some 600, none, some 1200].filterMap id) = some med ∧
      _ensure_hours_series "labresultoffset" [some 600, none, some 1200] =
        some (if 500 < |med| then
          [some 600, none, some 1200].map (Option.map (fun v => v / 60))
          else [some 600, none, some 1200]) :=
  (c8_relative_time_resolver "labresultoffset" [some 600, none, some 1200]).1
    (by decide) (by with_unfolding_all decide)

/-! ### Helper lemmas: substring containment -/

lemma isPrefixOf_append : ∀ (pat l r : List Char),
    pat.isPrefixOf l = true → pat.isPrefixOf (l ++ r) = true := by
  intro pat
  induction pat with
  | nil => intro l r _; simp [List.isPrefixOf]
  | cons p ps ih =>
    intro l r h
    cases l with
    | nil => simp [List.isPrefixOf] at h
    | cons c cs =>
      rw [List.cons_append]
      simp only [List.isPrefixOf, Bool.and_eq_true] at h ⊢
      exact ⟨h.1, ih cs r h.2⟩

lemma isPrefixOf_self : ∀ (l : List Char), l.isPrefixOf l = true := by
  intro l
  induction l with
  | nil => rfl
  | cons c cs ih =>
    simp only [List.isPrefixOf, Bool.and_eq_true]
    exact ⟨beq_self_eq_true c, ih⟩

lemma containsAux_of_isPrefixOf (pat l : List Char) (h : pat.isPrefixOf l = true) :
    containsAux pat l = true := by
  cases l with
  | nil => rw [containsAux]; exact h
  | cons c cs =>
    rw [containsAux, Bool.or_eq_true]
    exact Or.inl h

lemma containsAux_append_right : ∀ (a b pat : List Char),
    containsAux pat b = true → containsAux pat (a ++ b) = true := by
  intro a
  induction a with
  | nil => intro b pat h; exact h
  | cons c cs ih =>
    intro b pat h
    rw [List.cons_append, containsAux, Bool.or_eq_true]
    exact Or.inr (ih b pat h)

lemma containsAux_nil_pat : ∀ (l : List Char), containsAux [] l = true := by
  intro l
  cases l with
  | nil => rfl
  | cons c cs =>
    rw [containsAux, Bool.or_eq_true]
    exact Or.inl rfl

lemma containsAux_append_left : ∀ (a b pat : List Char),
    containsAux pat a = true → containsAux pat (a ++ b) = true := by
  intro a
  induction a with
  | nil =>
    intro b pat h
    rw [containsAux] at h
    cases pat with
    | nil => exact containsAux_nil_pat b
    | cons p ps => simp [List.isPrefixOf] at h
  | cons c cs ih =>
    intro b pat h
    rw [containsAux, Bool.or_eq_true] at h
    rw [List.cons_append, containsAux, Bool.or_eq_true]
    rcases h with h1 | h2
    · exact Or.inl (by rw [← List.cons_append]; exact isPrefixOf_append pat (c :: cs) b h1)
    · exact Or.inr (ih b pat h2)

lemma string_data_append (s t : String) : (s ++ t).data = s.data ++ t.data := rfl

lemma containsStr_append_right (a b pat : String) (h : containsStr b pat = true) :
    containsStr (a ++ b) pat = true := by
  rw [containsStr, string_data_append]
  exact containsAux_append_right a.data b.data pat.data h

lemma containsStr_self (s : String) : containsStr s s = true :=
  containsAux_of_isPrefixOf s.data s.data (isPrefixOf_self s.data)

lemma joinComma_cons (c r : String) (rs : List String) :
    joinComma (c :: r :: rs) = c ++ ", " ++ joinComma (r :: rs) := rfl

lemma joinComma_contains : ∀ (cs : List String) (n : String), n ∈ cs →
    containsStr (joinComma cs) n = true := by
  intro cs
  induction cs with
  | nil => intro n h; simp at h
  | cons c rest ih =>
    intro n h
    rcases List.mem_cons.mp h with rfl | h2
    · cases rest with
      | nil => exact containsStr_self n
      | cons r rs =>
        rw [joinComma_cons, containsStr, string_data_append, string_data_append]
        rw [List.append_assoc]
        exact containsAux_append_left _ _ _ (containsStr_self n)
    · cases rest with
      | nil => simp at h2
      | cons r rs =>
        rw [joinComma_cons, containsStr, string_data_append, string_data_append,
          List.append_assoc]
        exact containsAux_append_right _ _ _
          (containsAux_append_right _ _ _ (ih n h2))

/-- C9, counterexample: the claim's "first header whose lowercased form equals
a candidate" reading fails — the code scans candidates in order, so with
headers [B, A] and candidates [a, b] it returns A although the first matching
header is B; and the no-match error message names the tried candidates but
not the available headers (here "foo" does not occur in it). -/
theorem c9_column_resolver_counterexample :
    pick ["B", "A"] ["a", "b"] = Except.ok "A"
    ∧ pickSpecFirstHeader ["B", "A"] ["a", "b"] = some "B"
    ∧ ("A" : String) ≠ "B"
    ∧ pick ["foo"] ["bar"] = Except.error "Missing required column. Tried: bar"
    ∧ containsStr "Missing required column. Tried: bar" "foo" = false := by
  refine ⟨by with_unfolding_all rfl, by decide, by decide, by with_unfolding_all rfl,
    by decide⟩

/-- C9 (amended): the resolver scans the candidate list in order and returns,
for the first candidate with any case-insensitive header match, the first such
header (candidate-priority, not first-header priority); it has no side
effects (it is a pure function of the header and candidate lists); when no
header matches any candidate it returns a "missing column" error that names
every searched candidate (but not the available headers). -/
theorem c9_column_resolver_amended :
    (∀ (headers candidates : List String) (c : String),
      pick headers candidates = Except.ok c →
        c ∈ headers ∧ ∃ n ∈ candidates, strLower c = strLower n)
    ∧ (∀ (headers : List String) (name : String) (cs : List String) (c : String),
        headers.find? (fun h => decide (strLower h = strLower name)) = some c →
        pick headers (name :: cs) = Except.ok c)
    ∧ (∀ (headers candidates : List String),
        (∀ c ∈ headers, ∀ n ∈ candidates, strLower c ≠ strLower n) →
        pick headers candidates =
          Except.error ("Missing required column. Tried: " ++ joinComma candidates)
        ∧ ∀ n ∈ candidates,
            containsStr ("Missing required column. Tried: " ++ joinComma candidates) n
              = true) := by
  refine ⟨?_, ?_, ?_⟩
  · intro headers candidates c hok
    rw [pick] at hok
    cases hfs : candidates.findSome?
        (fun name => headers.find? (fun h => decide (strLower h = strLower name))) with
    | none => rw [hfs] at hok; exact Except.noConfusion hok
    | some c2 =>
      rw [hfs] at hok
      have hc : c2 = c := Except.ok.inj hok
      subst hc
      obtain ⟨n, hn, hfind⟩ := List.exists_of_findSome?_eq_some hfs
      refine ⟨List.mem_of_find?_eq_some hfind, n, hn, ?_⟩
      have hp := List.find?_some hfind
      simp only [decide_eq_true_eq] at hp
      exact hp
  · intro headers name cs c hfind
    rw [pick, List.findSome?_cons, hfind]
  · intro headers candidates hmiss
    have hfs : candidates.findSome?
        (fun name => headers.find? (fun h => decide (strLower h = strLower name))) =
          none := by
      rw [List.findSome?_eq_none_iff]
      intro n hn
      rw [List.find?_eq_none]
      intro c hc
      simp only [decide_eq_true_eq]
      exact hmiss c hc n hn
    constructor
    · rw [pick, hfs]
    · intro n hn
      exact containsStr_append_right _ _ _ (joinComma_contains candidates n hn)

/-- C9, witness: a candidate `subject_id` resolves to the header
`Subject_ID` case-insensitively. -/
theorem c9_column_resolver_witness :
    pick ["Subject_ID"] ["subject_id"] = Except.ok "Subject_ID" :=
  c9_column_resolver_amended.2.1 ["Subject_ID"] "subject_id" [] "Subject_ID" (by decide)

/-- C10: chunked id-filter output guarantee — for every input table whose
header has a `patientunitstayid` column (case-insensitive, at index `idx`),
the utility writes an output that begins with the input's header row (even
when zero data rows match), and every data row it appends has an id cell that
parses to an integer belonging to the baseline id set; rows whose id fails to
parse or is absent from the set are never written. -/
theorem c10_chunked_filter (parse : String → Option ℤ) (idSet : List ℤ)
    (chunksize : ℕ) (header : List String) (rows : List (List String)) (idx : ℕ)
    (hidx : find_id_col_idx header = some idx) :
    ∃ out, filter_one_file parse idSet chunksize header rows = some out
      ∧ out.head? = some header
      ∧ ∀ r ∈ out.tail, ∃ v, parse (r.getD idx "") = some v ∧ v ∈ idSet := by
  refine ⟨header :: (chunkBy chunksize rows).flatMap
      (fun ch => ch.filter (rowKeep parse idSet idx)), ?_, rfl, ?_⟩
  · rw [filter_one_file, hidx]
  · intro r hr
    simp only [List.tail_cons] at hr
    obtain ⟨ch, _, hrch⟩ := List.mem_flatMap.mp hr
    have hkeep := (List.mem_filter.mp hrch).2
    rw [rowKeep] at hkeep
    cases hp : parse (r.getD idx "") with
    | none =>
      rw [hp] at hkeep
      exact Bool.noConfusion hkeep
    | some v =>
      rw [hp] at hkeep
      exact ⟨v, rfl, of_decide_eq_true hkeep⟩

/-- C10, witness: a three-row table with ids 1, zz, 7 against baseline set
{1, 2} — the output exists, starts with the header, and every kept data
row's id parses into the set. -/
theorem c10_chunked_filter_witness :
    ∃ out, filter_one_file String.toInt? [1, 2] 2 ["PatientUnitStayID", "x"]
        [["1", "a"], ["zz", "b"], ["7", "c"]] = some out
      ∧ out.head? = some ["PatientUnitStayID", "x"]
      ∧ ∀ r ∈ out.tail, ∃ v, String.toInt? (r.getD 0 "") = some v ∧ v ∈ [(1 : ℤ), 2] :=
  c10_chunked_filter String.toInt? [1, 2] 2 ["PatientUnitStayID", "x"]
    [["1", "a"], ["zz", "b"], ["7", "c"]] 0 (by decide)
